import Mathlib

/-!
Shallow embedding of the guitar hand-position search program
(files guitars.py and main.py) and verification of its specification.

Python integers are modelled as Int (or Nat where the value is used only
as a list length / range bound), Python frozensets as Finset, Python
lists as List, and Python exceptions as the Except monad over an
explicit error type.
-/

namespace Guitars

/-- Error values standing for the exceptions raised by the Python code:
the message "This isn't a valid hand-position.", the message
"{string} isn't touched by this hand-position.", and a Python KeyError
from a dictionary lookup. -/
inductive GuitarError
  | invalidHandPosition
  | untouchedString
  | keyError
  deriving DecidableEq

/-- Python constant NUMBER_OF_FINGERS_TO_CONSIDER = 4. -/
def NUMBER_OF_FINGERS_TO_CONSIDER : Nat := 4

/-- Python constant MAXIMUM_SPAN_OF_FRETS = 3. -/
def MAXIMUM_SPAN_OF_FRETS : Int := 3

/-- Python class Note: a pitch with its scale degree. -/
structure Note where
  pitch : Int
  scale_degree : Int
  deriving DecidableEq

/-- Python dict Note.NOTE_NUMBER_TO_NAME; a missing key raises KeyError,
modelled as none. -/
def NOTE_NUMBER_TO_NAME (d : Int) : Option String :=
  if d = 0 then some "C"
  else if d = 1 then some "C#"
  else if d = 2 then some "D"
  else if d = 3 then some "E♭"
  else if d = 4 then some "E"
  else if d = 5 then some "F"
  else if d = 6 then some "F#"
  else if d = 7 then some "G"
  else if d = 8 then some "G#"
  else if d = 9 then some "A"
  else if d = 10 then some "B♭"
  else if d = 11 then some "B"
  else none

/-- Python classmethod Note.from_pitch: scale_degree is pitch % 12
(Python % on a positive modulus is Int.emod). -/
def Note.from_pitch (p : Int) : Note :=
  ⟨p, p % 12⟩

/-- Python property Note.name. -/
def Note.name (n : Note) : Option String :=
  NOTE_NUMBER_TO_NAME n.scale_degree

/-- Python method Note.transpose_upwards_by. -/
def Note.transpose_upwards_by (n : Note) (semitones : Int) : Note :=
  Note.from_pitch (n.pitch + semitones)

/-- Python class String (renamed: String is the Lean string type). -/
structure GuitarString where
  number : Nat
  deriving DecidableEq

/-- Python dict String.STRING_NUMBER_TO_NOTE. -/
def STRING_NUMBER_TO_NOTE (k : Nat) : Option Note :=
  if k = 1 then some (Note.from_pitch 28)
  else if k = 2 then some (Note.from_pitch 23)
  else if k = 3 then some (Note.from_pitch 19)
  else if k = 4 then some (Note.from_pitch 14)
  else if k = 5 then some (Note.from_pitch 9)
  else if k = 6 then some (Note.from_pitch 4)
  else none

/-- Python class Fret. Fret numbers in the enumeration are the values
0..F-1, but a Fret with any int number can be constructed. -/
structure Fret where
  number : Int
  deriving DecidableEq

/-- Python method String.note: the open-string note when no fret is
given, otherwise the open-string note transposed up by fret.number + 1
semitones.  The dictionary lookup of the open-string note happens in
both branches. -/
def GuitarString.note (s : GuitarString) (fret : Option Fret) : Except GuitarError Note :=
  match STRING_NUMBER_TO_NOTE s.number with
  | none => .error .keyError
  | some nt =>
    match fret with
    | none => .ok nt
    | some f => .ok (nt.transpose_upwards_by (f.number + 1))

/-- Python class Placement: one finger on one string at one fret. -/
structure Placement where
  string : GuitarString
  fret : Fret
  deriving DecidableEq

/-- Python class HandPosition: a frozenset of placements. -/
structure HandPosition where
  placements : Finset Placement
  deriving DecidableEq

/-- Python method HandPosition._involves_too_many_fingers. -/
def HandPosition.involves_too_many_fingers (h : HandPosition) : Bool :=
  decide (h.placements.card > NUMBER_OF_FINGERS_TO_CONSIDER)

/-- Python method HandPosition._a_string_is_touched_twice: the list of
touched strings has fewer distinct members than members. -/
def HandPosition.a_string_is_touched_twice (h : HandPosition) : Bool :=
  decide ((h.placements.image (fun p => p.string)).card < h.placements.card)

/-- Python method HandPosition._the_span_is_too_wide: false for the
empty placement set, otherwise whether max fret number minus min fret
number exceeds MAXIMUM_SPAN_OF_FRETS - 1. -/
def HandPosition.the_span_is_too_wide (h : HandPosition) : Bool :=
  if hne : (h.placements.image (fun p => p.fret.number)).Nonempty then
    decide ((h.placements.image (fun p => p.fret.number)).max' hne -
      (h.placements.image (fun p => p.fret.number)).min' hne > MAXIMUM_SPAN_OF_FRETS - 1)
  else false

/-- Python method HandPosition.is_valid: the three checks in order. -/
def HandPosition.is_valid (h : HandPosition) : Bool :=
  if h.involves_too_many_fingers then false
  else if h.a_string_is_touched_twice then false
  else if h.the_span_is_too_wide then false
  else true

/-- Python method HandPosition.touches: some placement is on the string. -/
def HandPosition.touches (h : HandPosition) (s : GuitarString) : Bool :=
  decide (∃ p ∈ h.placements, p.string = s)

/-- Python method HandPosition.get_fret_on: the fret of a placement on the
string, or the untouched-string error.  Python returns the first match in
the frozenset's iteration order, an arbitrary but fixed choice; it is
modelled as the minimum fret number among the matches, which coincides
with Python whenever at most one placement is on the string (in
particular for every hand position with is_valid true). -/
def HandPosition.get_fret_on (h : HandPosition) (s : GuitarString) : Except GuitarError Fret :=
  if hne : ((h.placements.filter (fun p => p.string = s)).image
      (fun p => p.fret.number)).Nonempty then
    .ok ⟨((h.placements.filter (fun p => p.string = s)).image
      (fun p => p.fret.number)).min' hne⟩
  else .error .untouchedString

/-- Python class attribute Guitar.STRINGS, strings 6 down to 1. -/
def Guitar.STRINGS : List GuitarString :=
  [⟨6⟩, ⟨5⟩, ⟨4⟩, ⟨3⟩, ⟨2⟩, ⟨1⟩]

/-- Body of the loop in Python classmethod Guitar.get_notes: the note
sounded by one string, fretted if the hand position touches it and open
otherwise. -/
def Guitar.sounded_note (h : HandPosition) (s : GuitarString) : Except GuitarError Note :=
  if h.touches s then do
    let f ← h.get_fret_on s
    s.note (some f)
  else s.note none

/-- Loop of Python classmethod Guitar.get_notes: one note per string of
the given list, accumulated in order. -/
def Guitar.notes_loop (h : HandPosition) : List GuitarString → Except GuitarError (List Note)
  | [] => .ok []
  | s :: rest => do
    let n ← Guitar.sounded_note h s
    let ns ← Guitar.notes_loop h rest
    pure (n :: ns)

/-- Python classmethod Guitar.get_notes: string 6 down to string 1. -/
def Guitar.get_notes (h : HandPosition) : Except GuitarError (List Note) :=
  Guitar.notes_loop h Guitar.STRINGS

/-- Python classmethod Guitar.get_open_strings: the untouched strings,
sorted ascending by string number. -/
def Guitar.get_open_strings (h : HandPosition) : List GuitarString :=
  List.insertionSort (fun a b => a.number ≤ b.number)
    (Guitar.STRINGS.filter (fun s => !h.touches s))

/-- Python method HandPosition.get_notes: the invalid-hand-position error
unless is_valid, then Guitar.get_notes. -/
def HandPosition.get_notes (h : HandPosition) : Except GuitarError (List Note) :=
  if h.is_valid then Guitar.get_notes h else .error .invalidHandPosition

/-- Python method HandPosition.get_open_strings: the invalid-hand-position
error unless is_valid, then Guitar.get_open_strings. -/
def HandPosition.get_open_strings (h : HandPosition) : Except GuitarError (List GuitarString) :=
  if h.is_valid then .ok (Guitar.get_open_strings h) else .error .invalidHandPosition

/-- Python method HandPosition.get_number_of_distinct_notes: the number of
distinct note names among the sounded notes. -/
def HandPosition.get_number_of_distinct_notes (h : HandPosition) : Except GuitarError Nat := do
  let notes ← h.get_notes
  let names ← notes.mapM (fun n =>
    match n.name with
    | some nm => Except.ok nm
    | none => Except.error GuitarError.keyError)
  pure names.dedup.length

deriving instance DecidableEq for Except

/-- Python class PairOfHandPositions (a frozen dataclass of two hand
positions). -/
structure PairOfHandPositions where
  first_hand_position : HandPosition
  second_hand_position : HandPosition
  deriving DecidableEq

/-- Python method PairOfHandPositions.produces_all_the_notes: the sounded
notes of both positions have 12 distinct scale degrees. -/
def PairOfHandPositions.produces_all_the_notes (pr : PairOfHandPositions) :
    Except GuitarError Bool := do
  let ns1 ← pr.first_hand_position.get_notes
  let ns2 ← pr.second_hand_position.get_notes
  pure (decide (((ns1 ++ ns2).map Note.scale_degree).dedup.length = 12))

/-- Python method PairOfHandPositions.__eq__: set equality of the two
members, so the pair is unordered. -/
def PairOfHandPositions.pair_eq (a b : PairOfHandPositions) : Prop :=
  ({a.first_hand_position, a.second_hand_position} : Finset HandPosition) =
    {b.first_hand_position, b.second_hand_position}

instance (a b : PairOfHandPositions) : Decidable (a.pair_eq b) :=
  inferInstanceAs (Decidable (_ = _))

/-- Python method PairOfHandPositions.get_all_open_strings: the set union
of the open strings of both positions. -/
def PairOfHandPositions.get_all_open_strings (pr : PairOfHandPositions) :
    Except GuitarError (Finset GuitarString) := do
  let os1 ← pr.first_hand_position.get_open_strings
  let os2 ← pr.second_hand_position.get_open_strings
  pure (os1.toFinset ∪ os2.toFinset)

/-- Python function generate_all_placements: every placement of a string
6 down to 1 at a fret 0..F-1 (strings outer, frets inner). -/
def generate_all_placements (F : Nat) : List Placement :=
  Guitar.STRINGS.flatMap (fun s =>
    (List.range F).map (fun (i : Nat) => Placement.mk s ⟨(i : Int)⟩))

/-- Python function filter_placements_given_lowest_fret: the placements
whose fret lies in [fret, fret + maximum_span - 1]. -/
def filter_placements_given_lowest_fret (placements : List Placement) (fret : Fret)
    (maximum_span : Int) : List Placement :=
  placements.filter (fun p =>
    fret.number ≤ p.fret.number ∧ p.fret.number ≤ fret.number + maximum_span - 1)

/-- Python function all_hand_positions_with_n_fingers: for n = 0 the
single empty hand position; for n + 1 every extension of an n-finger
hand position by one placement of the list not already in it. -/
def all_hand_positions_with_n_fingers (placements : List Placement) :
    Nat → Finset HandPosition
  | 0 => {HandPosition.mk ∅}
  | n + 1 =>
    placements.toFinset.biUnion (fun p =>
      ((all_hand_positions_with_n_fingers placements n).filter
        (fun hp => p ∉ hp.placements)).image
          (fun hp => HandPosition.mk (insert p hp.placements)))

/-- Python function generate_hand_positions_for_a_set_of_placements: the
union over n = 0..NUMBER_OF_FINGERS_TO_CONSIDER. -/
def generate_hand_positions_for_a_set_of_placements (placements : List Placement) :
    Finset HandPosition :=
  (Finset.range (NUMBER_OF_FINGERS_TO_CONSIDER + 1)).biUnion
    (fun i => all_hand_positions_with_n_fingers placements i)

/-- Python function generate_all_potential_hand_positions: the union of
the hand positions of each MAXIMUM_SPAN_OF_FRETS-wide window whose
lowest fret runs over 0..max(F - MAXIMUM_SPAN_OF_FRETS + 1, 3) - 1.
Python computes the bound with int arithmetic; it is at least 3, so
Int.toNat loses nothing. -/
def generate_all_potential_hand_positions (F : Nat) : Finset HandPosition :=
  (Finset.range (max ((F : Int) - MAXIMUM_SPAN_OF_FRETS + 1) MAXIMUM_SPAN_OF_FRETS).toNat).biUnion
    (fun i =>
      generate_hand_positions_for_a_set_of_placements
        (filter_placements_given_lowest_fret (generate_all_placements F) ⟨(i : Int)⟩
          MAXIMUM_SPAN_OF_FRETS))

/-- Python function filter_out_unreasonable_hand_positions: keep the
valid hand positions. -/
def filter_out_unreasonable_hand_positions (hps : Finset HandPosition) :
    Finset HandPosition :=
  hps.filter (fun hp => hp.is_valid = true)

/-- Python function generate_all_hand_positions: enumerate, then filter
by validity. -/
def generate_all_hand_positions (F : Nat) : Finset HandPosition :=
  filter_out_unreasonable_hand_positions (generate_all_potential_hand_positions F)

/-- Python function filter_out_hand_positions_with_repeated_notes: keep
the hand positions sounding 6 distinct note names.  An invalid hand
position in the input would raise, so a hand position is kept when the
count returns ok 6. -/
def filter_out_hand_positions_with_repeated_notes (hps : Finset HandPosition) :
    Finset HandPosition :=
  hps.filter (fun hp => hp.get_number_of_distinct_notes = .ok 6)

/-- Body of the nested loop of Python function
work_out_successful_pairs_of_hand_positions: test one pair, and add it to
the accumulated list unless an equal pair (under the unordered pair
equality) was already found. -/
def add_pair (acc : List PairOfHandPositions) (pair : PairOfHandPositions) :
    Except GuitarError (List PairOfHandPositions) := do
  let b ← pair.produces_all_the_notes
  if b then
    if acc.any (fun ep => decide (ep.pair_eq pair)) then pure acc
    else pure (acc ++ [pair])
  else pure acc

/-- The nested loop of work_out_successful_pairs_of_hand_positions,
flattened over the list of ordered pairs. -/
def work_out_loop : List PairOfHandPositions → List PairOfHandPositions →
    Except GuitarError (List PairOfHandPositions)
  | [], acc => .ok acc
  | pr :: rest, acc => do
    let acc2 ← add_pair acc pr
    work_out_loop rest acc2

/-- Every ordered pair (x, y) of members of the input, in the iteration
order of the Python nested for loops.  The Python input is a set; it is
modelled by the list of its members in iteration order. -/
def all_ordered_pairs (hps : List HandPosition) : List PairOfHandPositions :=
  hps.flatMap (fun x => hps.map (fun y => PairOfHandPositions.mk x y))

/-- Python function work_out_successful_pairs_of_hand_positions.  The
input set is modelled by the list of its members in iteration order.
The found pairs are accumulated as a list: Python adds them to a set,
but only after scanning the whole set for an ==-equal member, so an
append is exact.  The progress printing has no effect on the result and
is not modelled. -/
def work_out_successful_pairs_of_hand_positions (hps : List HandPosition) :
    Except GuitarError (List PairOfHandPositions) :=
  work_out_loop (all_ordered_pairs hps) []

/-- Python function filter_out_solutions_without_the_right_open_strings:
the list of pairs whose open strings equal the desired set, in order;
an exception from get_all_open_strings aborts the whole comprehension. -/
def filter_out_solutions_without_the_right_open_strings :
    List PairOfHandPositions → Finset GuitarString →
      Except GuitarError (List PairOfHandPositions)
  | [], _ => .ok []
  | pr :: rest, desired => do
    let os ← pr.get_all_open_strings
    let tail ← filter_out_solutions_without_the_right_open_strings rest desired
    pure (if os = desired then pr :: tail else tail)

theorem is_valid_iff (h : HandPosition) :
    h.is_valid = true ↔
      (h.involves_too_many_fingers = false ∧ h.a_string_is_touched_twice = false ∧
        h.the_span_is_too_wide = false) := by
  unfold HandPosition.is_valid
  cases hf : h.involves_too_many_fingers <;>
    cases hs : h.a_string_is_touched_twice <;>
      cases hw : h.the_span_is_too_wide <;> simp

theorem too_many_fingers_iff (h : HandPosition) :
    h.involves_too_many_fingers = false ↔ h.placements.card ≤ 4 := by
  simp [HandPosition.involves_too_many_fingers, NUMBER_OF_FINGERS_TO_CONSIDER]

theorem touched_twice_iff (h : HandPosition) :
    h.a_string_is_touched_twice = false ↔
      ∀ p ∈ h.placements, ∀ q ∈ h.placements, p.string = q.string → p = q := by
  have hle := Finset.card_image_le (s := h.placements) (f := fun p => p.string)
  constructor
  · intro hfalse p hp q hq hpq
    have hcard : (h.placements.image (fun p => p.string)).card = h.placements.card := by
      simp [HandPosition.a_string_is_touched_twice] at hfalse
      omega
    have hinj := Finset.card_image_iff.mp hcard
    exact hinj hp hq hpq
  · intro hinj
    have hcard : (h.placements.image (fun p => p.string)).card = h.placements.card :=
      Finset.card_image_iff.mpr (fun p hp q hq hpq => hinj p hp q hq hpq)
    simp [HandPosition.a_string_is_touched_twice, hcard]

theorem span_ok_iff (h : HandPosition) :
    h.the_span_is_too_wide = false ↔
      ∀ p ∈ h.placements, ∀ q ∈ h.placements, p.fret.number - q.fret.number ≤ 2 := by
  unfold HandPosition.the_span_is_too_wide
  by_cases hne : (h.placements.image (fun p => p.fret.number)).Nonempty
  · simp only [dif_pos hne, decide_eq_false_iff_not, not_lt, MAXIMUM_SPAN_OF_FRETS]
    constructor
    · intro hspan p hp q hq
      have hp' : p.fret.number ≤ (h.placements.image (fun p => p.fret.number)).max' hne :=
        Finset.le_max' _ _ (Finset.mem_image_of_mem (fun p => p.fret.number) hp)
      have hq' : (h.placements.image (fun p => p.fret.number)).min' hne ≤ q.fret.number :=
        Finset.min'_le _ _ (Finset.mem_image_of_mem (fun p => p.fret.number) hq)
      omega
    · intro hall
      have hmax := Finset.max'_mem _ hne
      have hmin := Finset.min'_mem _ hne
      rw [Finset.mem_image] at hmax hmin
      obtain ⟨p, hp, hpe⟩ := hmax
      obtain ⟨q, hq, hqe⟩ := hmin
      have := hall p hp q hq
      omega
  · simp only [dif_neg hne, true_iff]
    have hempty : h.placements = ∅ := by
      rw [Finset.not_nonempty_iff_eq_empty, Finset.image_eq_empty] at hne
      exact hne
    intro p hp
    simp [hempty] at hp

@[simp]
theorem ok_bind {α β : Type} (a : α) (f : α → Except GuitarError β) :
    (Except.ok a >>= f) = f a := rfl

@[simp]
theorem error_bind {α β : Type} (e : GuitarError) (f : α → Except GuitarError β) :
    ((Except.error e : Except GuitarError α) >>= f) = Except.error e := rfl

@[simp]
theorem pure_eq_ok {α : Type} (a : α) : (pure a : Except GuitarError α) = Except.ok a := rfl

theorem STRING_NUMBER_TO_NOTE_ok (k : Nat) (h1 : 1 ≤ k) (h2 : k ≤ 6) :
    ∃ nt, STRING_NUMBER_TO_NOTE k = some nt := by
  interval_cases k <;> exact ⟨_, rfl⟩

theorem string_note_ok (s : GuitarString) (f : Option Fret)
    (h1 : 1 ≤ s.number) (h2 : s.number ≤ 6) :
    ∃ n, s.note f = .ok n := by
  obtain ⟨nt, hnt⟩ := STRING_NUMBER_TO_NOTE_ok s.number h1 h2
  cases f with
  | none => exact ⟨nt, by simp [GuitarString.note, hnt]⟩
  | some fv =>
    exact ⟨nt.transpose_upwards_by (fv.number + 1), by simp [GuitarString.note, hnt]⟩

theorem get_fret_on_ok_of_touches (h : HandPosition) (s : GuitarString)
    (ht : h.touches s = true) : ∃ f, h.get_fret_on s = .ok f := by
  have hmem : ∃ p ∈ h.placements, p.string = s := by
    simpa [HandPosition.touches] using ht
  have hne : ((h.placements.filter (fun p => p.string = s)).image
      (fun p => p.fret.number)).Nonempty := by
    obtain ⟨p, hp, hps⟩ := hmem
    exact ⟨p.fret.number, Finset.mem_image_of_mem _ (Finset.mem_filter.mpr ⟨hp, hps⟩)⟩
  refine ⟨⟨((h.placements.filter (fun p => p.string = s)).image
      (fun p => p.fret.number)).min' hne⟩, ?_⟩
  unfold HandPosition.get_fret_on
  rw [dif_pos hne]

theorem sounded_note_ok (h : HandPosition) (s : GuitarString)
    (h1 : 1 ≤ s.number) (h2 : s.number ≤ 6) :
    ∃ n, Guitar.sounded_note h s = .ok n := by
  unfold Guitar.sounded_note
  cases ht : h.touches s
  · obtain ⟨n, hn⟩ := string_note_ok s none h1 h2
    exact ⟨n, by simp [hn]⟩
  · obtain ⟨f, hf⟩ := get_fret_on_ok_of_touches h s ht
    obtain ⟨n, hn⟩ := string_note_ok s (some f) h1 h2
    exact ⟨n, by simp [hf, hn]⟩

/-- Guitar.get_notes always returns six notes, one per string in the
order string 6 down to string 1, whatever the hand position. -/
theorem guitar_get_notes_eq (h : HandPosition) :
    ∃ n6 n5 n4 n3 n2 n1 : Note,
      Guitar.sounded_note h ⟨6⟩ = .ok n6 ∧ Guitar.sounded_note h ⟨5⟩ = .ok n5 ∧
      Guitar.sounded_note h ⟨4⟩ = .ok n4 ∧ Guitar.sounded_note h ⟨3⟩ = .ok n3 ∧
      Guitar.sounded_note h ⟨2⟩ = .ok n2 ∧ Guitar.sounded_note h ⟨1⟩ = .ok n1 ∧
      Guitar.get_notes h = .ok [n6, n5, n4, n3, n2, n1] := by
  obtain ⟨n6, h6⟩ := sounded_note_ok h ⟨6⟩ (by decide) (by decide)
  obtain ⟨n5, h5⟩ := sounded_note_ok h ⟨5⟩ (by decide) (by decide)
  obtain ⟨n4, h4⟩ := sounded_note_ok h ⟨4⟩ (by decide) (by decide)
  obtain ⟨n3, h3⟩ := sounded_note_ok h ⟨3⟩ (by decide) (by decide)
  obtain ⟨n2, h2⟩ := sounded_note_ok h ⟨2⟩ (by decide) (by decide)
  obtain ⟨n1, h1⟩ := sounded_note_ok h ⟨1⟩ (by decide) (by decide)
  exact ⟨n6, n5, n4, n3, n2, n1, h6, h5, h4, h3, h2, h1, by
    simp [Guitar.get_notes, Guitar.STRINGS, Guitar.notes_loop, h6, h5, h4, h3, h2, h1]⟩

theorem guitar_get_notes_ok (h : HandPosition) :
    ∃ l, Guitar.get_notes h = .ok l ∧ l.length = 6 := by
  obtain ⟨n6, n5, n4, n3, n2, n1, _, _, _, _, _, _, hl⟩ := guitar_get_notes_eq h
  exact ⟨_, hl, rfl⟩

/-- C6: the note and open-string queries fail with the
invalid-hand-position error exactly when is_valid is false; on a valid
hand position they return normally, get_notes giving six notes whose
i-th entry is the note sounded by string 6 - i (string 6 down to
string 1). -/
theorem get_notes_error_iff_invalid (h : HandPosition) :
    (h.get_notes = .error .invalidHandPosition ↔ h.is_valid = false) ∧
    (h.get_open_strings = .error .invalidHandPosition ↔ h.is_valid = false) ∧
    (h.is_valid = true →
      (∃ l, h.get_notes = .ok l ∧ l.length = 6 ∧
          ∀ i, (hi : i < l.length) →
            Guitar.sounded_note h ⟨6 - i⟩ = .ok (l.get ⟨i, hi⟩)) ∧
        ∃ os, h.get_open_strings = .ok os) := by
  cases hv : h.is_valid
  · refine ⟨?_, ?_, ?_⟩
    · simp [HandPosition.get_notes, hv]
    · simp [HandPosition.get_open_strings, hv]
    · intro hcontra; exact absurd hcontra (by simp [hv])
  · obtain ⟨n6, n5, n4, n3, n2, n1, h6, h5, h4, h3, h2, h1, hl⟩ := guitar_get_notes_eq h
    refine ⟨?_, ?_, fun _ => ⟨⟨[n6, n5, n4, n3, n2, n1], ?_, rfl, ?_⟩,
      ⟨Guitar.get_open_strings h, ?_⟩⟩⟩
    · simp [HandPosition.get_notes, hv, hl]
    · simp [HandPosition.get_open_strings, hv]
    · simp [HandPosition.get_notes, hv, hl]
    · intro i hi
      have hi6 : i < 6 := by simpa using hi
      interval_cases i <;> simp_all <;> rfl
    · simp [HandPosition.get_open_strings, hv]

/-- C8: for a real string (1..6) and a non-negative fret, the fretted
note is the open note transposed up by fret number + 1 semitones. -/
theorem fretted_note_transposition (s : GuitarString) (f : Fret)
    (h1 : 1 ≤ s.number) (h2 : s.number ≤ 6) (h3 : 0 ≤ f.number) :
    ∃ n0, s.note none = .ok n0 ∧
      s.note (some f) = .ok (n0.transpose_upwards_by (f.number + 1)) := by
  obtain ⟨nt, hnt⟩ := STRING_NUMBER_TO_NOTE_ok s.number h1 h2
  exact ⟨nt, by simp [GuitarString.note, hnt], by simp [GuitarString.note, hnt]⟩

theorem fretted_note_transposition_witness :
    ∃ n0, (⟨1⟩ : GuitarString).note none = .ok n0 ∧
      (⟨1⟩ : GuitarString).note (some ⟨0⟩) = .ok (n0.transpose_upwards_by ((0 : Int) + 1)) :=
  fretted_note_transposition ⟨1⟩ ⟨0⟩ (by decide) (by decide) (by decide)

/-- C3: is_valid holds exactly when the hand position has at most four
placements, touches no string twice, and spans at most two frets; the
span condition is vacuous with no placements. -/
theorem is_valid_spec (h : HandPosition) :
    h.is_valid = true ↔
      (h.placements.card ≤ 4 ∧
        (∀ p ∈ h.placements, ∀ q ∈ h.placements, p.string = q.string → p = q) ∧
        (∀ p ∈ h.placements, ∀ q ∈ h.placements, p.fret.number - q.fret.number ≤ 2)) := by
  rw [is_valid_iff, too_many_fingers_iff, touched_twice_iff, span_ok_iff]

/-- C7: constructing a pair from two distinct hand positions in either
order gives equal pairs under the Python pair equality. -/
theorem pair_eq_symm_spec (A B : HandPosition) (hne : A ≠ B) :
    (PairOfHandPositions.mk A B).pair_eq (PairOfHandPositions.mk B A) := by
  unfold PairOfHandPositions.pair_eq
  exact Finset.pair_comm A B

theorem pair_eq_symm_spec_witness :
    (PairOfHandPositions.mk (HandPosition.mk ∅)
        (HandPosition.mk {Placement.mk ⟨1⟩ ⟨0⟩})).pair_eq
      (PairOfHandPositions.mk (HandPosition.mk {Placement.mk ⟨1⟩ ⟨0⟩})
        (HandPosition.mk ∅)) :=
  pair_eq_symm_spec _ _ (by decide)

theorem dedup_append_self_le {α : Type} [DecidableEq α] (l : List α) :
    (l ++ l).dedup.length ≤ l.length := by
  have h1 : (l ++ l).toFinset.card = (l ++ l).dedup.length := List.card_toFinset _
  have h2 : (l ++ l).toFinset = l.toFinset := by
    rw [List.toFinset_append, Finset.union_self]
  rw [h2] at h1
  have h3 : l.toFinset.card ≤ l.length := l.toFinset_card_le
  omega

theorem produces_self_eq_false (x : HandPosition) (hv : x.is_valid = true) :
    (PairOfHandPositions.mk x x).produces_all_the_notes = .ok false := by
  obtain ⟨l, hl, hlen⟩ := guitar_get_notes_ok x
  have hgn : x.get_notes = .ok l := by simp [HandPosition.get_notes, hv, hl]
  unfold PairOfHandPositions.produces_all_the_notes
  simp only [hgn, ok_bind, pure_eq_ok]
  have hle : (List.map Note.scale_degree l ++ List.map Note.scale_degree l).dedup.length ≤ 6 :=
    le_trans (dedup_append_self_le (l.map Note.scale_degree)) (by simp [hlen])
  have hne12 : ¬ (List.map Note.scale_degree l ++ List.map Note.scale_degree l).dedup.length = 12 := by
    omega
  simp [List.map_append, hne12]

theorem work_out_loop_mem (todo acc res : List PairOfHandPositions)
    (h : work_out_loop todo acc = .ok res) :
    ∀ pr ∈ res, pr ∈ acc ∨ (pr ∈ todo ∧ pr.produces_all_the_notes = .ok true) := by
  induction todo generalizing acc with
  | nil =>
    intro pr hpr
    unfold work_out_loop at h
    injection h with h
    exact Or.inl (h ▸ hpr)
  | cons q rest ih =>
    intro pr hpr
    unfold work_out_loop add_pair at h
    cases hb : q.produces_all_the_notes with
    | error e => rw [hb] at h; simp at h
    | ok b =>
      rw [hb] at h
      simp only [ok_bind] at h
      cases b with
      | false =>
        simp only [Bool.false_eq_true, if_false, pure_eq_ok, ok_bind] at h
        rcases ih acc h pr hpr with hin | ⟨hint, htrue⟩
        · exact Or.inl hin
        · exact Or.inr ⟨List.mem_cons_of_mem _ hint, htrue⟩
      | true =>
        simp only [if_true, pure_eq_ok] at h
        cases hfound : acc.any (fun ep => decide (ep.pair_eq q)) with
        | true =>
          rw [hfound] at h
          simp only [if_true, pure_eq_ok, ok_bind] at h
          rcases ih acc h pr hpr with hin | ⟨hint, htrue⟩
          · exact Or.inl hin
          · exact Or.inr ⟨List.mem_cons_of_mem _ hint, htrue⟩
        | false =>
          rw [hfound] at h
          simp only [Bool.false_eq_true, if_false, pure_eq_ok, ok_bind] at h
          rcases ih (acc ++ [q]) h pr hpr with hin | ⟨hint, htrue⟩
          · rcases List.mem_append.mp hin with hin | hin
            · exact Or.inl hin
            · have : pr = q := by simpa using hin
              exact Or.inr ⟨this ▸ List.mem_cons_self q rest, this ▸ hb⟩
          · exact Or.inr ⟨List.mem_cons_of_mem _ hint, htrue⟩

theorem produces_self_ne_true (x : HandPosition) :
    ¬ (PairOfHandPositions.mk x x).produces_all_the_notes = .ok true := by
  intro htrue
  cases hv : x.is_valid with
  | true => rw [produces_self_eq_false x hv] at htrue; exact Bool.false_ne_true (by injection htrue)
  | false =>
    unfold PairOfHandPositions.produces_all_the_notes at htrue
    simp [HandPosition.get_notes, hv] at htrue

/-- C4: a valid hand position paired with itself never produces all 12
notes (its six sounded notes have at most six distinct scale degrees),
and the pairing search never returns a pair whose two members are
equal. -/
theorem self_pair_never_complete :
    (∀ x : HandPosition, x.is_valid = true →
      (PairOfHandPositions.mk x x).produces_all_the_notes = .ok false) ∧
    ∀ (S : List HandPosition) (res : List PairOfHandPositions),
      work_out_successful_pairs_of_hand_positions S = .ok res →
      ∀ pr ∈ res, pr.first_hand_position ≠ pr.second_hand_position := by
  refine ⟨produces_self_eq_false, ?_⟩
  intro S res h pr hpr heq
  rcases work_out_loop_mem _ _ _ h pr hpr with hin | ⟨_, htrue⟩
  · simp at hin
  · obtain ⟨x, y⟩ := pr
    simp only at heq
    subst heq
    exact produces_self_ne_true x htrue

/-- C5: the open-string filter keeps exactly the pairs whose combined
open strings equal the required set, for pairs of valid hand
positions. -/
theorem filter_open_strings_spec (sols : List PairOfHandPositions) (R : Finset GuitarString)
    (hv : ∀ pr ∈ sols, pr.first_hand_position.is_valid = true ∧
      pr.second_hand_position.is_valid = true) :
    ∃ res, filter_out_solutions_without_the_right_open_strings sols R = .ok res ∧
      ∀ pr, pr ∈ res ↔ (pr ∈ sols ∧ pr.get_all_open_strings = .ok R) := by
  induction sols with
  | nil => exact ⟨[], rfl, by simp⟩
  | cons q rest ih =>
    obtain ⟨res, hres, hmem⟩ := ih (fun pr hpr => hv pr (List.mem_cons_of_mem _ hpr))
    obtain ⟨hq1, hq2⟩ := hv q (List.mem_cons_self q rest)
    have hos : q.get_all_open_strings =
        .ok ((Guitar.get_open_strings q.first_hand_position).toFinset ∪
          (Guitar.get_open_strings q.second_hand_position).toFinset) := by
      unfold PairOfHandPositions.get_all_open_strings
      simp [HandPosition.get_open_strings, hq1, hq2]
    set os := (Guitar.get_open_strings q.first_hand_position).toFinset ∪
      (Guitar.get_open_strings q.second_hand_position).toFinset with hosdef
    have hstep : filter_out_solutions_without_the_right_open_strings (q :: rest) R =
        .ok (if os = R then q :: res else res) := by
      unfold filter_out_solutions_without_the_right_open_strings
      rw [hos]
      simp only [ok_bind, hres, pure_eq_ok]
    refine ⟨if os = R then q :: res else res, hstep, ?_⟩
    intro pr
    by_cases heq : os = R
    · simp only [heq, if_true, List.mem_cons]
      constructor
      · rintro (rfl | hin)
        · exact ⟨Or.inl rfl, by rw [hos, heq]⟩
        · obtain ⟨hr, ho⟩ := (hmem pr).mp hin
          exact ⟨Or.inr hr, ho⟩
      · rintro ⟨rfl | hin, ho⟩
        · exact Or.inl rfl
        · exact Or.inr ((hmem pr).mpr ⟨hin, ho⟩)
    · simp only [heq, if_false, List.mem_cons]
      constructor
      · intro hin
        obtain ⟨hr, ho⟩ := (hmem pr).mp hin
        exact ⟨Or.inr hr, ho⟩
      · rintro ⟨rfl | hin, ho⟩
        · rw [hos] at ho
          exact absurd (by injection ho) heq
        · exact (hmem pr).mpr ⟨hin, ho⟩

theorem filter_open_strings_spec_witness :
    ∃ res, filter_out_solutions_without_the_right_open_strings
        [PairOfHandPositions.mk (HandPosition.mk ∅) (HandPosition.mk ∅)]
        {⟨1⟩, ⟨2⟩, ⟨3⟩, ⟨4⟩, ⟨5⟩, ⟨6⟩} = .ok res ∧
      ∀ pr, pr ∈ res ↔
        (pr ∈ [PairOfHandPositions.mk (HandPosition.mk ∅) (HandPosition.mk ∅)] ∧
          pr.get_all_open_strings = .ok {⟨1⟩, ⟨2⟩, ⟨3⟩, ⟨4⟩, ⟨5⟩, ⟨6⟩}) :=
  filter_open_strings_spec _ _ (by
    intro pr hpr
    rw [List.mem_singleton] at hpr
    subst hpr
    constructor <;> decide)

theorem hand_mk_placements (t : Finset Placement) : (HandPosition.mk t).placements = t := rfl

theorem touches_filter_strings (h : HandPosition) (s : GuitarString)
    (h1 : 1 ≤ s.number) (h2 : s.number ≤ 6) :
    (HandPosition.mk (h.placements.filter
      (fun p => 1 ≤ p.string.number ∧ p.string.number ≤ 6))).touches s = h.touches s := by
  simp only [HandPosition.touches, hand_mk_placements, decide_eq_decide]
  constructor
  · rintro ⟨p, hp, hps⟩
    exact ⟨p, (Finset.mem_filter.mp hp).1, hps⟩
  · rintro ⟨p, hp, hps⟩
    exact ⟨p, Finset.mem_filter.mpr ⟨hp, by rw [hps]; exact ⟨h1, h2⟩⟩, hps⟩

theorem get_fret_on_filter_strings (h : HandPosition) (s : GuitarString)
    (h1 : 1 ≤ s.number) (h2 : s.number ≤ 6) :
    (HandPosition.mk (h.placements.filter
      (fun p => 1 ≤ p.string.number ∧ p.string.number ≤ 6))).get_fret_on s =
      h.get_fret_on s := by
  have hsets : (h.placements.filter
      (fun p => 1 ≤ p.string.number ∧ p.string.number ≤ 6)).filter
        (fun p => p.string = s) = h.placements.filter (fun p => p.string = s) := by
    ext p
    simp only [Finset.mem_filter]
    constructor
    · rintro ⟨⟨hp, _⟩, hps⟩
      exact ⟨hp, hps⟩
    · rintro ⟨hp, hps⟩
      exact ⟨⟨hp, by rw [hps]; exact ⟨h1, h2⟩⟩, hps⟩
  unfold HandPosition.get_fret_on
  simp only [hand_mk_placements, hsets]

theorem sounded_note_filter_strings (h : HandPosition) (s : GuitarString)
    (h1 : 1 ≤ s.number) (h2 : s.number ≤ 6) :
    Guitar.sounded_note (HandPosition.mk (h.placements.filter
      (fun p => 1 ≤ p.string.number ∧ p.string.number ≤ 6))) s =
      Guitar.sounded_note h s := by
  unfold Guitar.sounded_note
  rw [touches_filter_strings h s h1 h2, get_fret_on_filter_strings h s h1 h2]

/-- C10: is_valid never checks that placements lie on a real string or a
non-negative fret.  Guitar.get_notes sounds strings 6 down to 1 only, so
placements on other strings are silently ignored; a hand position whose
single placement is on string 7 at fret -1 passes is_valid and sounds
the six open strings.  Such placements still count toward the
finger-count, distinct-string and span checks. -/
theorem get_notes_ignores_unreal_strings :
    (∀ h : HandPosition, Guitar.get_notes h = Guitar.get_notes (HandPosition.mk
      (h.placements.filter (fun p => 1 ≤ p.string.number ∧ p.string.number ≤ 6)))) ∧
    (HandPosition.mk {Placement.mk ⟨7⟩ ⟨-1⟩}).is_valid = true ∧
    (HandPosition.mk {Placement.mk ⟨7⟩ ⟨-1⟩}).get_notes =
      .ok [Note.from_pitch 4, Note.from_pitch 9, Note.from_pitch 14,
        Note.from_pitch 19, Note.from_pitch 23, Note.from_pitch 28] ∧
    (HandPosition.mk {Placement.mk ⟨7⟩ ⟨0⟩, Placement.mk ⟨8⟩ ⟨0⟩, Placement.mk ⟨9⟩ ⟨0⟩,
      Placement.mk ⟨10⟩ ⟨0⟩, Placement.mk ⟨11⟩ ⟨0⟩}).is_valid = false ∧
    (HandPosition.mk {Placement.mk ⟨7⟩ ⟨0⟩, Placement.mk ⟨7⟩ ⟨1⟩}).is_valid = false ∧
    (HandPosition.mk {Placement.mk ⟨7⟩ ⟨0⟩, Placement.mk ⟨8⟩ ⟨5⟩}).is_valid = false := by
  refine ⟨?_, by decide, by decide, by decide, by decide, by decide⟩
  intro h
  have e6 := sounded_note_filter_strings h ⟨6⟩ (by decide) (by decide)
  have e5 := sounded_note_filter_strings h ⟨5⟩ (by decide) (by decide)
  have e4 := sounded_note_filter_strings h ⟨4⟩ (by decide) (by decide)
  have e3 := sounded_note_filter_strings h ⟨3⟩ (by decide) (by decide)
  have e2 := sounded_note_filter_strings h ⟨2⟩ (by decide) (by decide)
  have e1 := sounded_note_filter_strings h ⟨1⟩ (by decide) (by decide)
  simp [Guitar.get_notes, Guitar.STRINGS, Guitar.notes_loop, e6, e5, e4, e3, e2, e1]

theorem pair_eq_cases (a : PairOfHandPositions) (x y : HandPosition)
    (h : a.pair_eq (PairOfHandPositions.mk x y)) :
    (a.first_hand_position = x ∧ a.second_hand_position = y) ∨
      (a.first_hand_position = y ∧ a.second_hand_position = x) := by
  unfold PairOfHandPositions.pair_eq at h
  have hset : ({a.first_hand_position, a.second_hand_position} : Set HandPosition) =
      {x, y} := by
    have := congrArg (fun t : Finset HandPosition => (t : Set HandPosition)) h
    simpa using this
  exact Set.pair_eq_pair_iff.mp hset

theorem dedup_length_append_comm {α : Type} [DecidableEq α] (a b : List α) :
    (a ++ b).dedup.length = (b ++ a).dedup.length := by
  rw [← List.card_toFinset, ← List.card_toFinset, List.toFinset_append,
    List.toFinset_append, Finset.union_comm]

theorem produces_ok_elim (a b : HandPosition) (r : Bool)
    (h : (PairOfHandPositions.mk a b).produces_all_the_notes = .ok r) :
    ∃ la lb, a.get_notes = .ok la ∧ b.get_notes = .ok lb ∧
      r = decide (((la ++ lb).map Note.scale_degree).dedup.length = 12) := by
  unfold PairOfHandPositions.produces_all_the_notes at h
  cases ha : a.get_notes with
  | error e => rw [ha] at h; simp at h
  | ok la =>
    rw [ha] at h
    simp only [ok_bind] at h
    cases hbn : b.get_notes with
    | error e => rw [hbn] at h; simp at h
    | ok lb =>
      rw [hbn] at h
      simp only [ok_bind, pure_eq_ok] at h
      injection h with h
      exact ⟨la, lb, rfl, rfl, h.symm⟩

theorem produces_swap_true (x y : HandPosition)
    (h : (PairOfHandPositions.mk y x).produces_all_the_notes = .ok true) :
    (PairOfHandPositions.mk x y).produces_all_the_notes = .ok true := by
  obtain ⟨ly, lx, hy, hx, hr⟩ := produces_ok_elim y x true h
  unfold PairOfHandPositions.produces_all_the_notes
  simp only [hx, hy, ok_bind, pure_eq_ok]
  have hcomm : ((lx ++ ly).map Note.scale_degree).dedup.length =
      ((ly ++ lx).map Note.scale_degree).dedup.length := by
    rw [List.map_append, List.map_append]
    exact dedup_length_append_comm _ _
  rw [hcomm]
  exact congrArg Except.ok hr.symm

theorem produces_ok_of_valid (a b : HandPosition)
    (ha : a.is_valid = true) (hb : b.is_valid = true) :
    ∃ r, (PairOfHandPositions.mk a b).produces_all_the_notes = .ok r := by
  obtain ⟨la, hla, _⟩ := guitar_get_notes_ok a
  obtain ⟨lb, hlb, _⟩ := guitar_get_notes_ok b
  refine ⟨decide (((la ++ lb).map Note.scale_degree).dedup.length = 12), ?_⟩
  unfold PairOfHandPositions.produces_all_the_notes
  simp [HandPosition.get_notes, ha, hb, hla, hlb]

theorem mem_all_ordered_pairs (S : List HandPosition) (pr : PairOfHandPositions) :
    pr ∈ all_ordered_pairs S ↔
      pr.first_hand_position ∈ S ∧ pr.second_hand_position ∈ S := by
  unfold all_ordered_pairs
  rw [List.mem_flatMap]
  constructor
  · rintro ⟨x, hx, hm⟩
    rw [List.mem_map] at hm
    obtain ⟨y, hy, rfl⟩ := hm
    exact ⟨hx, hy⟩
  · rintro ⟨h1, h2⟩
    exact ⟨pr.first_hand_position, h1,
      List.mem_map.mpr ⟨pr.second_hand_position, h2, rfl⟩⟩

theorem work_out_loop_total (todo : List PairOfHandPositions) :
    ∀ acc, (∀ q ∈ todo, ∃ b, q.produces_all_the_notes = .ok b) →
      ∃ res, work_out_loop todo acc = .ok res ∧
        (∀ p ∈ acc, p ∈ res) ∧
        (∀ q ∈ todo, q.produces_all_the_notes = .ok true → ∃ p ∈ res, p.pair_eq q) ∧
        (List.Pairwise (fun p q => ¬ p.pair_eq q) acc →
          List.Pairwise (fun p q => ¬ p.pair_eq q) res) := by
  induction todo with
  | nil =>
    intro acc _
    exact ⟨acc, rfl, fun p hp => hp, by simp, id⟩
  | cons q rest ih =>
    intro acc hok
    obtain ⟨b, hb⟩ := hok q (List.mem_cons_self q rest)
    have hokr : ∀ q' ∈ rest, ∃ b, q'.produces_all_the_notes = .ok b :=
      fun q' hq' => hok q' (List.mem_cons_of_mem _ hq')
    cases b with
    | false =>
      obtain ⟨res, hres, hacc, hrep, hpw⟩ := ih acc hokr
      refine ⟨res, ?_, hacc, ?_, hpw⟩
      · unfold work_out_loop add_pair
        rw [hb]
        simpa using hres
      · intro q' hq' htrue
        rcases List.mem_cons.mp hq' with rfl | hmem
        · rw [hb] at htrue
          exact absurd (by injection htrue) Bool.false_ne_true
        · exact hrep q' hmem htrue
    | true =>
      cases hfound : acc.any (fun ep => decide (ep.pair_eq q)) with
      | true =>
        obtain ⟨res, hres, hacc, hrep, hpw⟩ := ih acc hokr
        refine ⟨res, ?_, hacc, ?_, hpw⟩
        · unfold work_out_loop add_pair
          rw [hb]
          simpa [hfound] using hres
        · intro q' hq' htrue
          rcases List.mem_cons.mp hq' with rfl | hmem
          · obtain ⟨ep, hep, hepq⟩ := List.any_eq_true.mp hfound
            exact ⟨ep, hacc ep hep, of_decide_eq_true hepq⟩
          · exact hrep q' hmem htrue
      | false =>
        obtain ⟨res, hres, hacc, hrep, hpw⟩ := ih (acc ++ [q]) hokr
        refine ⟨res, ?_, fun p hp => hacc p (List.mem_append_left _ hp), ?_, ?_⟩
        · unfold work_out_loop add_pair
          rw [hb]
          simpa [hfound] using hres
        · intro q' hq' htrue
          rcases List.mem_cons.mp hq' with rfl | hmem
          · refine ⟨q', hacc q' (by simp), ?_⟩
            unfold PairOfHandPositions.pair_eq
            rfl
          · exact hrep q' hmem htrue
        · intro hpacc
          apply hpw
          rw [List.pairwise_append]
          refine ⟨hpacc, by simp, ?_⟩
          intro a ha b hbmem
          rw [List.mem_singleton] at hbmem
          subst hbmem
          have hfa := List.any_eq_false.mp hfound a ha
          intro hpe
          rw [decide_eq_true hpe] at hfa
          simp at hfa

/-- C2: the pairing search succeeds on a list of valid
six-distinct-note hand positions, and a pair equal (under the unordered
pair equality) to (x, y) appears in the result exactly when x and y are
in the input and together produce all 12 notes; no two returned pairs
are equal to each other. -/
theorem work_out_pairs_spec (S : List HandPosition)
    (hv : ∀ h ∈ S, h.is_valid = true ∧ h.get_number_of_distinct_notes = .ok 6) :
    ∃ res, work_out_successful_pairs_of_hand_positions S = .ok res ∧
      (∀ x y : HandPosition,
        (∃ p ∈ res, p.pair_eq (PairOfHandPositions.mk x y)) ↔
          (x ∈ S ∧ y ∈ S ∧
            (PairOfHandPositions.mk x y).produces_all_the_notes = .ok true)) ∧
      List.Pairwise (fun p q => ¬ p.pair_eq q) res := by
  have hok : ∀ q ∈ all_ordered_pairs S, ∃ b, q.produces_all_the_notes = .ok b := by
    intro q hq
    obtain ⟨h1, h2⟩ := (mem_all_ordered_pairs S q).mp hq
    obtain ⟨r, hr⟩ := produces_ok_of_valid q.first_hand_position q.second_hand_position
      (hv _ h1).1 (hv _ h2).1
    exact ⟨r, hr⟩
  obtain ⟨res, hres, _, hrep, hpw⟩ := work_out_loop_total (all_ordered_pairs S) [] hok
  refine ⟨res, hres, ?_, hpw List.Pairwise.nil⟩
  intro x y
  constructor
  · rintro ⟨p, hp, hpe⟩
    rcases work_out_loop_mem _ _ _ hres p hp with hin | ⟨hint, htrue⟩
    · simp at hin
    · obtain ⟨hp1, hp2⟩ := (mem_all_ordered_pairs S p).mp hint
      rcases pair_eq_cases p x y hpe with ⟨e1, e2⟩ | ⟨e1, e2⟩
      · refine ⟨e1 ▸ hp1, e2 ▸ hp2, ?_⟩
        have hpeq : p = PairOfHandPositions.mk x y := by
          obtain ⟨p1, p2⟩ := p
          simp only at e1 e2
          rw [e1, e2]
        exact hpeq ▸ htrue
      · refine ⟨e2 ▸ hp2, e1 ▸ hp1, ?_⟩
        have hpeq : p = PairOfHandPositions.mk y x := by
          obtain ⟨p1, p2⟩ := p
          simp only at e1 e2
          rw [e1, e2]
        exact produces_swap_true x y (hpeq ▸ htrue)
  · rintro ⟨hx, hy, htrue⟩
    exact hrep _ ((mem_all_ordered_pairs S _).mpr ⟨hx, hy⟩) htrue

theorem work_out_pairs_spec_witness :
    ∃ res, work_out_successful_pairs_of_hand_positions
        [HandPosition.mk {Placement.mk ⟨1⟩ ⟨0⟩}] = .ok res ∧
      (∀ x y : HandPosition,
        (∃ p ∈ res, p.pair_eq (PairOfHandPositions.mk x y)) ↔
          (x ∈ [HandPosition.mk {Placement.mk ⟨1⟩ ⟨0⟩}] ∧
            y ∈ [HandPosition.mk {Placement.mk ⟨1⟩ ⟨0⟩}] ∧
            (PairOfHandPositions.mk x y).produces_all_the_notes = .ok true)) ∧
      List.Pairwise (fun p q => ¬ p.pair_eq q) res :=
  work_out_pairs_spec [HandPosition.mk {Placement.mk ⟨1⟩ ⟨0⟩}] (by
    intro h hh
    rw [List.mem_singleton] at hh
    subst hh
    exact ⟨by decide, by decide⟩)

theorem mem_generate_all_placements (F : Nat) (p : Placement) :
    p ∈ generate_all_placements F ↔
      (1 ≤ p.string.number ∧ p.string.number ≤ 6 ∧
        0 ≤ p.fret.number ∧ p.fret.number < (F : Int)) := by
  unfold generate_all_placements
  constructor
  · intro hm
    rw [List.mem_flatMap] at hm
    obtain ⟨s, hs, hm⟩ := hm
    rw [List.mem_map] at hm
    obtain ⟨i, hi, rfl⟩ := hm
    rw [List.mem_range] at hi
    fin_cases hs <;> simp <;> omega
  · rintro ⟨h1, h2, h3, h4⟩
    obtain ⟨⟨k⟩, ⟨n⟩⟩ := p
    simp only at h1 h2 h3 h4
    have hsmem : (⟨k⟩ : GuitarString) ∈ Guitar.STRINGS := by
      unfold Guitar.STRINGS
      interval_cases k <;> simp
    rw [List.mem_flatMap]
    refine ⟨⟨k⟩, hsmem, ?_⟩
    rw [List.mem_map]
    refine ⟨n.toNat, List.mem_range.mpr (by omega), ?_⟩
    rw [Int.toNat_of_nonneg h3]

theorem mem_filter_placements (ps : List Placement) (fret : Fret) (span : Int)
    (p : Placement) :
    p ∈ filter_placements_given_lowest_fret ps fret span ↔
      (p ∈ ps ∧ fret.number ≤ p.fret.number ∧
        p.fret.number ≤ fret.number + span - 1) := by
  unfold filter_placements_given_lowest_fret
  rw [List.mem_filter]
  simp

theorem mem_all_hand_positions_with_n_fingers (ps : List Placement) (n : Nat) :
    ∀ hp : HandPosition, hp ∈ all_hand_positions_with_n_fingers ps n ↔
      (hp.placements ⊆ ps.toFinset ∧ hp.placements.card = n) := by
  induction n with
  | zero =>
    intro hp
    unfold all_hand_positions_with_n_fingers
    rw [Finset.mem_singleton]
    constructor
    · rintro rfl
      exact ⟨by simp [hand_mk_placements], by simp [hand_mk_placements]⟩
    · rintro ⟨_, hcard⟩
      have : hp.placements = ∅ := Finset.card_eq_zero.mp hcard
      obtain ⟨t⟩ := hp
      simp only [hand_mk_placements] at this
      rw [this]
  | succ n ih =>
    intro hp
    unfold all_hand_positions_with_n_fingers
    rw [Finset.mem_biUnion]
    constructor
    · rintro ⟨p, hpps, hm⟩
      rw [Finset.mem_image] at hm
      obtain ⟨hp', hp'mem, rfl⟩ := hm
      rw [Finset.mem_filter] at hp'mem
      obtain ⟨hp'mem, hpnot⟩ := hp'mem
      obtain ⟨hsub, hcard⟩ := (ih hp').mp hp'mem
      refine ⟨?_, ?_⟩
      · rw [hand_mk_placements]
        exact Finset.insert_subset hpps hsub
      · rw [hand_mk_placements, Finset.card_insert_of_not_mem hpnot, hcard]
    · rintro ⟨hsub, hcard⟩
      have hne : hp.placements.Nonempty := by
        rw [← Finset.card_pos, hcard]
        omega
      obtain ⟨p, hpmem⟩ := hne
      refine ⟨p, hsub hpmem, ?_⟩
      rw [Finset.mem_image]
      refine ⟨HandPosition.mk (hp.placements.erase p), ?_, ?_⟩
      · rw [Finset.mem_filter]
        refine ⟨(ih _).mpr ⟨?_, ?_⟩, ?_⟩
        · rw [hand_mk_placements]
          exact (Finset.erase_subset _ _).trans hsub
        · rw [hand_mk_placements, Finset.card_erase_of_mem hpmem, hcard]
          omega
        · rw [hand_mk_placements]
          exact Finset.not_mem_erase _ _
      · rw [hand_mk_placements]
        have hins : insert p (hp.placements.erase p) = hp.placements :=
          Finset.insert_erase hpmem
        rw [hins]

theorem mem_generate_hand_positions_for_set (ps : List Placement) (hp : HandPosition) :
    hp ∈ generate_hand_positions_for_a_set_of_placements ps ↔
      (hp.placements ⊆ ps.toFinset ∧ hp.placements.card ≤ 4) := by
  unfold generate_hand_positions_for_a_set_of_placements NUMBER_OF_FINGERS_TO_CONSIDER
  rw [Finset.mem_biUnion]
  constructor
  · rintro ⟨i, hi, hm⟩
    obtain ⟨hsub, hcard⟩ := (mem_all_hand_positions_with_n_fingers ps i hp).mp hm
    rw [Finset.mem_range] at hi
    exact ⟨hsub, by omega⟩
  · rintro ⟨hsub, hcard⟩
    exact ⟨hp.placements.card, Finset.mem_range.mpr (by omega),
      (mem_all_hand_positions_with_n_fingers ps _ hp).mpr ⟨hsub, rfl⟩⟩

theorem mem_generate_all_potential (F : Nat) (hp : HandPosition) :
    hp ∈ generate_all_potential_hand_positions F ↔
      ∃ i, i ∈ Finset.range
          (max ((F : Int) - MAXIMUM_SPAN_OF_FRETS + 1) MAXIMUM_SPAN_OF_FRETS).toNat ∧
        hp.placements ⊆ (filter_placements_given_lowest_fret (generate_all_placements F)
          ⟨(i : Int)⟩ MAXIMUM_SPAN_OF_FRETS).toFinset ∧
        hp.placements.card ≤ 4 := by
  unfold generate_all_potential_hand_positions
  rw [Finset.mem_biUnion]
  constructor
  · rintro ⟨i, hi, hm⟩
    obtain ⟨hsub, hcard⟩ := (mem_generate_hand_positions_for_set _ hp).mp hm
    exact ⟨i, hi, hsub, hcard⟩
  · rintro ⟨i, hi, hsub, hcard⟩
    exact ⟨i, hi, (mem_generate_hand_positions_for_set _ hp).mpr ⟨hsub, hcard⟩⟩

theorem gen_all_hand_positions_iff (F : Nat) (h : HandPosition) :
    h ∈ generate_all_hand_positions F ↔
      (h.is_valid = true ∧ ∀ p ∈ h.placements,
        1 ≤ p.string.number ∧ p.string.number ≤ 6 ∧
          0 ≤ p.fret.number ∧ p.fret.number < (F : Int)) := by
  unfold generate_all_hand_positions filter_out_unreasonable_hand_positions
  rw [Finset.mem_filter]
  constructor
  · rintro ⟨hmem, hvalid⟩
    refine ⟨hvalid, ?_⟩
    obtain ⟨i, _, hsub, _⟩ := (mem_generate_all_potential F h).mp hmem
    intro p hp
    have := hsub hp
    rw [List.mem_toFinset, mem_filter_placements] at this
    exact (mem_generate_all_placements F p).mp this.1
  · rintro ⟨hvalid, hall⟩
    refine ⟨?_, hvalid⟩
    rw [mem_generate_all_potential]
    have hcard : h.placements.card ≤ 4 :=
      (too_many_fingers_iff h).mp ((is_valid_iff h).mp hvalid).1
    have hspan := (span_ok_iff h).mp ((is_valid_iff h).mp hvalid).2.2
    rcases Finset.eq_empty_or_nonempty h.placements with hemp | hne
    · refine ⟨0, ?_, ?_, hcard⟩
      · rw [Finset.mem_range]
        omega
      · rw [hemp]
        exact Finset.empty_subset _
    · have hne' : (h.placements.image (fun p => p.fret.number)).Nonempty :=
        hne.image _
      set m := (h.placements.image (fun p => p.fret.number)).min' hne' with hm
      obtain ⟨q, hq, hqe⟩ : ∃ q ∈ h.placements, q.fret.number = m := by
        have := Finset.min'_mem _ hne'
        rw [Finset.mem_image] at this
        obtain ⟨q, hq, hqe⟩ := this
        exact ⟨q, hq, hqe⟩
      have hm0 : 0 ≤ m := by
        rw [← hqe]
        exact (hall q hq).2.2.1
      have hmF : m < (F : Int) := by
        rw [← hqe]
        exact (hall q hq).2.2.2
      set highest : Int := max ((F : Int) - MAXIMUM_SPAN_OF_FRETS + 1)
        MAXIMUM_SPAN_OF_FRETS with hh
      have hh3 : 3 ≤ highest := by
        rw [hh]
        unfold MAXIMUM_SPAN_OF_FRETS
        omega
      have hhF : (F : Int) - 2 ≤ highest := by
        rw [hh]
        unfold MAXIMUM_SPAN_OF_FRETS
        omega
      set L : Int := min m (highest - 1) with hL
      have hL0 : 0 ≤ L := by omega
      refine ⟨L.toNat, ?_, ?_, hcard⟩
      · rw [Finset.mem_range]
        omega
      · intro p hp
        rw [List.mem_toFinset, mem_filter_placements]
        have hmle : m ≤ p.fret.number := by
          rw [hm]
          exact Finset.min'_le _ _ (Finset.mem_image_of_mem (fun p => p.fret.number) hp)
        have hup : p.fret.number - q.fret.number ≤ 2 := hspan p hp q hq
        have hpF : p.fret.number < (F : Int) := (hall p hp).2.2.2
        have hLcase : L = m ∨ L = highest - 1 := by
          rw [hL]
          rcases le_total m (highest - 1) with hc | hc
          · exact Or.inl (min_eq_left hc)
          · exact Or.inr (min_eq_right hc)
        refine ⟨(mem_generate_all_placements F p).mpr (hall p hp), ?_, ?_⟩
        · show (L.toNat : Int) ≤ p.fret.number
          rcases hLcase with hLe | hLe <;> omega
        · show p.fret.number ≤ (L.toNat : Int) + MAXIMUM_SPAN_OF_FRETS - 1
          unfold MAXIMUM_SPAN_OF_FRETS
          rcases hLcase with hLe | hLe <;> omega

/-- C1: the validated enumeration returns exactly the valid hand
positions whose placements all lie on a string 1..6 at a fret 0..F-1;
for F = 0 the result is exactly the singleton of the empty hand
position. -/
theorem generate_all_hand_positions_spec (F : Nat) (h : HandPosition) :
    (h ∈ generate_all_hand_positions F ↔
      (h.is_valid = true ∧ ∀ p ∈ h.placements,
        1 ≤ p.string.number ∧ p.string.number ≤ 6 ∧
          0 ≤ p.fret.number ∧ p.fret.number < (F : Int))) ∧
    generate_all_hand_positions 0 = {HandPosition.mk ∅} := by
  refine ⟨gen_all_hand_positions_iff F h, ?_⟩
  ext h'
  rw [gen_all_hand_positions_iff 0 h', Finset.mem_singleton]
  constructor
  · rintro ⟨_, hall⟩
    have hemp : h'.placements = ∅ := by
      rw [Finset.eq_empty_iff_forall_not_mem]
      intro p hp
      have := (hall p hp).2.2
      omega
    obtain ⟨t⟩ := h'
    simp only [hand_mk_placements] at hemp
    rw [hemp]
  · rintro rfl
    exact ⟨by decide, by simp⟩

/-- C9: every hand position produced by the window enumeration already
has at most 4 placements and a fret span of at most 2, so the final
validity filter can only ever reject a candidate in which some string is
touched twice. -/
theorem potential_hand_positions_invariant (F : Nat) (h : HandPosition)
    (hmem : h ∈ generate_all_potential_hand_positions F) :
    h.placements.card ≤ 4 ∧ h.the_span_is_too_wide = false ∧
      (h.is_valid = false → h.a_string_is_touched_twice = true) := by
  obtain ⟨i, _, hsub, hcard⟩ := (mem_generate_all_potential F h).mp hmem
  have hspan : h.the_span_is_too_wide = false := by
    rw [span_ok_iff]
    intro p hp q hq
    have hpw := hsub hp
    have hqw := hsub hq
    rw [List.mem_toFinset, mem_filter_placements] at hpw hqw
    unfold MAXIMUM_SPAN_OF_FRETS at hpw hqw
    omega
  refine ⟨hcard, hspan, ?_⟩
  intro hinvalid
  cases htw : h.a_string_is_touched_twice with
  | true => rfl
  | false =>
    have : h.is_valid = true :=
      (is_valid_iff h).mpr ⟨(too_many_fingers_iff h).mpr hcard, htw, hspan⟩
    rw [this] at hinvalid
    exact absurd hinvalid (by simp)

theorem potential_hand_positions_invariant_witness :
    (HandPosition.mk ∅).placements.card ≤ 4 ∧
      (HandPosition.mk ∅).the_span_is_too_wide = false ∧
      ((HandPosition.mk ∅).is_valid = false →
        (HandPosition.mk ∅).a_string_is_touched_twice = true) :=
  potential_hand_positions_invariant 0 (HandPosition.mk ∅) (by decide)

end Guitars
